import Mathlib

/-!
Verification of the integer arithmetic analyzer binding (`python/tvm/arith.py`)
and the analysis engine behind it.  The Python layer (fact-kind dispatch in
`Analyzer.update`, the `ConstraintScope` context manager, and the
`ConstIntBound` sentinels) is embedded directly from the source; the native
engine operations (`const_int_bound`, `const_int_bound_update`, `modular_set`,
`rewrite_simplify`, `canonical_simplify`, `enter_constraint_context`) are not
part of the excerpt and are modelled from the specification, as marked on each
definition.
-/

/-- Constant integer bound `[min_value, max_value]`, from class `ConstIntBound`
in `arith.py`.  Values are 64-bit in the engine; we use `Int` with explicit
saturation at the sentinels. -/
structure ConstIntBound where
  min_value : Int
  max_value : Int
deriving DecidableEq

/-- `POS_INF = (1 << 63) - 1`, from `arith.py` line 56. -/
def ConstIntBound.POS_INF : Int := ((1 <<< 63 : Nat) : Int) - 1

/-- `NEG_INF = -POS_INF`, from `arith.py` line 57. -/
def ConstIntBound.NEG_INF : Int := -ConstIntBound.POS_INF

/-- Modular set `{coeff * x + base | x in Z}`, from class `ModularSet`
in `arith.py`. -/
structure ModularSet where
  coeff : Int
  base : Int
deriving DecidableEq

/-- Host IR expressions, per the collaborator contract of the spec:
variables, integer literals, the arithmetic operators
add/sub/mul/div/mod and the comparisons. -/
inductive Expr where
  | var (i : Nat)
  | const (v : Int)
  | add (a b : Expr)
  | sub (a b : Expr)
  | mul (a b : Expr)
  | div (a b : Expr)
  | mod (a b : Expr)
  | lt (a b : Expr)
  | le (a b : Expr)
  | eq (a b : Expr)
deriving DecidableEq

/-- Analyzer state: the per-variable bound fact store and the LIFO constraint
stack.  Modelled from the spec: the native analyzer owns both; the constraint
stack is an append-record-length-truncate log. -/
structure AnalyzerState where
  bounds : List (Nat × ConstIntBound)
  constraints : List Expr
deriving DecidableEq

/-- Fresh analyzer state, as built by `Analyzer.__init__` (no facts, no
constraints). -/
def Analyzer.init : AnalyzerState := ⟨[], []⟩

/-- Lookup of the bound fact stored for a variable (first matching entry). -/
def lookupFact : List (Nat × ConstIntBound) → Nat → Option ConstIntBound
  | [], _ => none
  | (k, b) :: rest, v => if k = v then some b else lookupFact rest v

/-- Python-style call outcome: a value or a propagating exception. -/
inductive PyErr where
  | typeError
  | conflictError
deriving DecidableEq

/-- Result of running a Python-level action. -/
inductive PyResult (α : Type) where
  | ok (v : α)
  | exn (e : PyErr)
deriving DecidableEq

/-- Fact kinds that can be passed as `info` to `Analyzer.update`:
`ConstIntBound` and the other value types of the module (`ModularSet`). -/
inductive FactInfo where
  | constIntBound (b : ConstIntBound)
  | modularSet (m : ModularSet)
deriving DecidableEq

/-- Modelled from the spec: the native `const_int_bound_update` entry point.
`override=True` always replaces the stored fact; with `override=False` an
existing incompatible (disjoint-interval) fact makes the call fail, otherwise
the fact is replaced.  On failure the state is unchanged. -/
def Analyzer.const_int_bound_update (s : AnalyzerState) (v : Nat)
    (b : ConstIntBound) (override : Bool) : PyResult Unit × AnalyzerState :=
  if override then
    (PyResult.ok (), { s with bounds := (v, b) :: s.bounds })
  else
    match lookupFact s.bounds v with
    | some old =>
      if old.max_value < b.min_value ∨ b.max_value < old.min_value then
        (PyResult.exn PyErr.conflictError, s)
      else
        (PyResult.ok (), { s with bounds := (v, b) :: s.bounds })
    | none => (PyResult.ok (), { s with bounds := (v, b) :: s.bounds })

/-- `Analyzer.update` from `arith.py` lines 205-223: dispatch on the concrete
fact type.  A `ConstIntBound` goes to `const_int_bound_update`; any other fact
kind raises `TypeError` before touching any store, leaving the state as it
was. -/
def Analyzer.update (s : AnalyzerState) (v : Nat) (info : FactInfo)
    (override : Bool) : PyResult Unit × AnalyzerState :=
  match info with
  | FactInfo.constIntBound b => Analyzer.const_int_bound_update s v b override
  | _ => (PyResult.exn PyErr.typeError, s)

/-- Modelled from the spec: the native `modular_set` query, defined further
below, reads the constraint stack; `varModular` resolves the modular fact of a
single variable from the innermost (most recently pushed) matching
constraint. -/
def constraintModular (x : Nat) : Expr → Option ModularSet
  | Expr.eq (Expr.mod (Expr.var i) (Expr.const m)) (Expr.const r) =>
    if i = x ∧ 0 < m then some ⟨m, r⟩ else none
  | _ => none

/-- Modular fact of a variable under the current constraint stack: innermost
pushed constraint of the shape `x % m == r` wins; otherwise the trivial set
`{1, 0}` (no information). -/
def varModular (cs : List Expr) (x : Nat) : ModularSet :=
  match cs.reverse.findSome? (constraintModular x) with
  | some m => m
  | none => ⟨1, 0⟩

/-- Modular-lattice addition: coefficient `gcd c1 c2`, derived base. -/
def msAdd (m1 m2 : ModularSet) : ModularSet :=
  let g : Int := (Int.gcd m1.coeff m2.coeff : Nat)
  if g = 0 then ⟨0, m1.base + m2.base⟩ else ⟨g, (m1.base + m2.base) % g⟩

/-- Modular-lattice subtraction. -/
def msSub (m1 m2 : ModularSet) : ModularSet :=
  let g : Int := (Int.gcd m1.coeff m2.coeff : Nat)
  if g = 0 then ⟨0, m1.base - m2.base⟩ else ⟨g, (m1.base - m2.base) % g⟩

/-- Modular-lattice multiplication: a constant (coefficient 0) scales both the
coefficient and the base; the product of two non-constant sets falls back to
the trivial set. -/
def msMul (m1 m2 : ModularSet) : ModularSet :=
  if m1.coeff = 0 then ⟨((m1.base * m2.coeff).natAbs : Nat), m1.base * m2.base⟩
  else if m2.coeff = 0 then ⟨((m2.base * m1.coeff).natAbs : Nat), m2.base * m1.base⟩
  else ⟨1, 0⟩

/-- Modelled from the spec: the native `modular_set` query behind
`Analyzer.modular_set` (`arith.py` lines 118-131).  Total: every query returns
a sound modular set, defaulting to the trivial set `{1, 0}`. -/
def Analyzer.modular_set (s : AnalyzerState) : Expr → ModularSet
  | Expr.var i => varModular s.constraints i
  | Expr.const v => ⟨0, v⟩
  | Expr.add a b => msAdd (Analyzer.modular_set s a) (Analyzer.modular_set s b)
  | Expr.sub a b => msSub (Analyzer.modular_set s a) (Analyzer.modular_set s b)
  | Expr.mul a b => msMul (Analyzer.modular_set s a) (Analyzer.modular_set s b)
  | _ => ⟨1, 0⟩

/-- Saturation of a 64-bit engine value at the sentinels, per the spec:
arithmetic on bounds saturates to `POS_INF`/`NEG_INF` on overflow rather than
wrapping. -/
def satClamp (v : Int) : Int :=
  if v < ConstIntBound.NEG_INF then ConstIntBound.NEG_INF
  else if ConstIntBound.POS_INF < v then ConstIntBound.POS_INF
  else v

/-- Bound-lattice addition (spec 4.1), saturating. -/
def boundAdd (a b : ConstIntBound) : ConstIntBound :=
  ⟨satClamp (a.min_value + b.min_value), satClamp (a.max_value + b.max_value)⟩

/-- Bound-lattice subtraction (spec 4.1), saturating. -/
def boundSub (a b : ConstIntBound) : ConstIntBound :=
  ⟨satClamp (a.min_value - b.max_value), satClamp (a.max_value - b.min_value)⟩

/-- Bound-lattice multiplication (spec 4.1): extremes over the four corner
products, saturating. -/
def boundMul (a b : ConstIntBound) : ConstIntBound :=
  let p1 := a.min_value * b.min_value
  let p2 := a.min_value * b.max_value
  let p3 := a.max_value * b.min_value
  let p4 := a.max_value * b.max_value
  ⟨satClamp (min (min p1 p2) (min p3 p4)), satClamp (max (max p1 p2) (max p3 p4))⟩

/-- Bound-lattice division (spec 4.1): a divisor bound that may include zero
yields the entire range; otherwise the extremes over the corner quotients
(truncated division, matching the engine), saturating. -/
def boundDiv (a b : ConstIntBound) : ConstIntBound :=
  if b.min_value ≤ 0 ∧ 0 ≤ b.max_value then
    ⟨ConstIntBound.NEG_INF, ConstIntBound.POS_INF⟩
  else
    let p1 := Int.tdiv a.min_value b.min_value
    let p2 := Int.tdiv a.min_value b.max_value
    let p3 := Int.tdiv a.max_value b.min_value
    let p4 := Int.tdiv a.max_value b.max_value
    ⟨satClamp (min (min p1 p2) (min p3 p4)), satClamp (max (max p1 p2) (max p3 p4))⟩

/-- Bound-lattice modulo (spec 4.1): a divisor bound that may include zero
yields the entire range; otherwise the remainder magnitude is below the
largest divisor magnitude `m`. -/
def boundMod (a b : ConstIntBound) : ConstIntBound :=
  if b.min_value ≤ 0 ∧ 0 ≤ b.max_value then
    ⟨ConstIntBound.NEG_INF, ConstIntBound.POS_INF⟩
  else
    let m := max b.max_value (-b.min_value)
    ⟨satClamp (1 - m), satClamp (m - 1)⟩

/-- Modelled from the spec: the native `const_int_bound` query behind
`Analyzer.const_int_bound` (`arith.py` lines 103-116).  Total: every
expression gets a bound; a variable with no stored fact gets the full range
`[NEG_INF, POS_INF]`; comparisons are boolean-valued, bounded by `[0, 1]`. -/
def Analyzer.const_int_bound (s : AnalyzerState) : Expr → ConstIntBound
  | Expr.var i =>
    match lookupFact s.bounds i with
    | some b => b
    | none => ⟨ConstIntBound.NEG_INF, ConstIntBound.POS_INF⟩
  | Expr.const v => ⟨satClamp v, satClamp v⟩
  | Expr.add a b =>
    boundAdd (Analyzer.const_int_bound s a) (Analyzer.const_int_bound s b)
  | Expr.sub a b =>
    boundSub (Analyzer.const_int_bound s a) (Analyzer.const_int_bound s b)
  | Expr.mul a b =>
    boundMul (Analyzer.const_int_bound s a) (Analyzer.const_int_bound s b)
  | Expr.div a b =>
    boundDiv (Analyzer.const_int_bound s a) (Analyzer.const_int_bound s b)
  | Expr.mod a b =>
    boundMod (Analyzer.const_int_bound s a) (Analyzer.const_int_bound s b)
  | Expr.lt _ _ => ⟨0, 1⟩
  | Expr.le _ _ => ⟨0, 1⟩
  | Expr.eq _ _ => ⟨0, 1⟩

/-- C9: the unbounded-side sentinels are exactly `POS_INF = 2^63 - 1` and
`NEG_INF = -POS_INF = -(2^63 - 1)`; in particular `NEG_INF` is not `-2^63`. -/
theorem pos_inf_neg_inf_values :
    ConstIntBound.POS_INF = 2 ^ 63 - 1 ∧
    ConstIntBound.NEG_INF = -(2 ^ 63 - 1) ∧
    ConstIntBound.NEG_INF ≠ -(2 ^ 63) := by
  refine ⟨by decide, by decide, by decide⟩

/-- C1: `Analyzer.update` dispatches a `ConstIntBound` fact to the bound-fact
store entry point `const_int_bound_update`, and fails with a type error for
every fact kind that is not a `ConstIntBound`. -/
theorem update_dispatch (s : AnalyzerState) (v : Nat) (override : Bool)
    (info : FactInfo) :
    (∀ b, Analyzer.update s v (FactInfo.constIntBound b) override =
      Analyzer.const_int_bound_update s v b override) ∧
    ((∀ b, info ≠ FactInfo.constIntBound b) →
      Analyzer.update s v info override = (PyResult.exn PyErr.typeError, s)) := by
  constructor
  · intro b; rfl
  · intro h
    cases info with
    | constIntBound b => exact absurd rfl (h b)
    | modularSet m => rfl

/-- Witness for C1 at a concrete non-`ConstIntBound` fact. -/
theorem update_dispatch_witness :
    Analyzer.update Analyzer.init 0 (FactInfo.modularSet ⟨1, 0⟩) false =
      (PyResult.exn PyErr.typeError, Analyzer.init) :=
  (update_dispatch Analyzer.init 0 false (FactInfo.modularSet ⟨1, 0⟩)).2
    (fun b h => FactInfo.noConfusion h)

/-- C8: after a successful `update(v, ConstIntBound(0, 5), override=False)`,
the call `update(v, ConstIntBound(10, 20), override=False)` fails on the
conflicting (disjoint) fact instead of silently replacing it. -/
theorem update_conflicting_fails (s s1 : AnalyzerState) (v : Nat)
    (h : Analyzer.update s v (FactInfo.constIntBound ⟨0, 5⟩) false =
      (PyResult.ok (), s1)) :
    Analyzer.update s1 v (FactInfo.constIntBound ⟨10, 20⟩) false =
      (PyResult.exn PyErr.conflictError, s1) := by
  have hb : s1.bounds = (v, (⟨0, 5⟩ : ConstIntBound)) :: s.bounds := by
    rcases hl : lookupFact s.bounds v with _ | old
    · simp only [Analyzer.update, Analyzer.const_int_bound_update,
        Bool.false_eq_true, if_false, hl, Prod.mk.injEq, true_and] at h
      rw [← h]
    · simp only [Analyzer.update, Analyzer.const_int_bound_update,
        Bool.false_eq_true, if_false, hl] at h
      by_cases hc : old.max_value < (0 : Int) ∨ (5 : Int) < old.min_value
      · rw [if_pos hc] at h
        exact absurd (congrArg Prod.fst h) (by simp)
      · rw [if_neg hc] at h
        simp only [Prod.mk.injEq, true_and] at h
        rw [← h]
  simp only [Analyzer.update, Analyzer.const_int_bound_update,
    Bool.false_eq_true, if_false, hb, lookupFact, if_pos rfl]
  norm_num

/-- Witness for C8: the two concrete updates on a fresh analyzer. -/
theorem update_conflicting_fails_witness :
    Analyzer.update ⟨[(0, ⟨0, 5⟩)], []⟩ 0 (FactInfo.constIntBound ⟨10, 20⟩)
      false = (PyResult.exn PyErr.conflictError, ⟨[(0, ⟨0, 5⟩)], []⟩) :=
  update_conflicting_fails Analyzer.init ⟨[(0, ⟨0, 5⟩)], []⟩ 0 rfl

/-- C10: `Analyzer.update` is atomic on its error path: an unrecognized fact
kind (such as a `ModularSet`) raises the type error before any dispatch, the
fact store is unchanged, and both analysis queries answer exactly as before
the failed call. -/
theorem update_type_error_atomic (s : AnalyzerState) (v : Nat)
    (info : FactInfo) (override : Bool)
    (h : ∀ b, info ≠ FactInfo.constIntBound b) :
    Analyzer.update s v info override = (PyResult.exn PyErr.typeError, s) ∧
    ∀ e, Analyzer.const_int_bound (Analyzer.update s v info override).2 e =
        Analyzer.const_int_bound s e ∧
      Analyzer.modular_set (Analyzer.update s v info override).2 e =
        Analyzer.modular_set s e := by
  have hu : Analyzer.update s v info override =
      (PyResult.exn PyErr.typeError, s) := by
    cases info with
    | constIntBound b => exact absurd rfl (h b)
    | modularSet m => rfl
  exact ⟨hu, fun e => by rw [hu]; exact ⟨rfl, rfl⟩⟩

/-- Witness for C10: a `ModularSet` fact on a fresh analyzer, with the queries
checked on a concrete expression. -/
theorem update_type_error_atomic_witness :
    Analyzer.update Analyzer.init 0 (FactInfo.modularSet ⟨3, 1⟩) false =
      (PyResult.exn PyErr.typeError, Analyzer.init) ∧
    Analyzer.const_int_bound
        (Analyzer.update Analyzer.init 0 (FactInfo.modularSet ⟨3, 1⟩) false).2
        (Expr.var 0) =
      Analyzer.const_int_bound Analyzer.init (Expr.var 0) ∧
    Analyzer.modular_set
        (Analyzer.update Analyzer.init 0 (FactInfo.modularSet ⟨3, 1⟩) false).2
        (Expr.var 0) =
      Analyzer.modular_set Analyzer.init (Expr.var 0) := by
  have h := update_type_error_atomic Analyzer.init 0
    (FactInfo.modularSet ⟨3, 1⟩) false (fun b hb => FactInfo.noConfusion hb)
  exact ⟨h.1, (h.2 (Expr.var 0)).1, (h.2 (Expr.var 0)).2⟩

/-- Modelled from the spec: the native `enter_constraint_context` behind
`Analyzer.constraint_scope` (`arith.py` lines 176-203).  Entering appends the
constraint to the stack and captures the pre-entry stack length, the data the
returned release closure truncates back to. -/
def constraintScopeEnter (c : Expr) (s : AnalyzerState) : AnalyzerState × Nat :=
  ({ s with constraints := s.constraints ++ [c] }, s.constraints.length)

/-- The release action returned by `enter_constraint_context` (stored as
`_fexit` by `ConstraintScope.__enter__`): truncate the constraint stack back
to the recorded length. -/
def constraintScopeRelease (n : Nat) (s : AnalyzerState) : AnalyzerState :=
  { s with constraints := s.constraints.take n }

/-- Events emitted by the scope machinery itself while a `with` block runs. -/
inductive ScopeEvent where
  | enter (c : Expr)
  | release (n : Nat)
deriving DecidableEq

/-- `ConstraintScope` (`arith.py` lines 64-84) driven by the Python `with`
statement: `__enter__` runs `_fenter` once and stores the returned release
closure; the block body runs; `__exit__` runs the stored closure once, on the
normal path and on the exception path alike, and returns `None` (falsy), so a
propagating exception is re-raised, never suppressed.  The event list records
each action the scope machinery performs. -/
def runWithScope {α : Type} (c : Expr) (s : AnalyzerState)
    (body : AnalyzerState → PyResult α × AnalyzerState) :
    PyResult α × AnalyzerState × List ScopeEvent :=
  let s1 := (constraintScopeEnter c s).1
  let n := (constraintScopeEnter c s).2
  match body s1 with
  | (PyResult.ok v, s2) =>
    (PyResult.ok v, constraintScopeRelease n s2, [ScopeEvent.enter c, ScopeEvent.release n])
  | (PyResult.exn e, s2) =>
    (PyResult.exn e, constraintScopeRelease n s2, [ScopeEvent.enter c, ScopeEvent.release n])

/-- C2: for every constraint scope, whatever the body does and however it
exits (normal value or propagating exception), the release action obtained on
entry runs exactly once — the final state is exactly one application of the
release to the body's final state and the event log holds exactly one release
event — and the body's outcome (including an exception) is passed through
unchanged, never suppressed. -/
theorem constraint_scope_release_exactly_once {α : Type} (c : Expr)
    (s : AnalyzerState) (body : AnalyzerState → PyResult α × AnalyzerState)
    (r : PyResult α) (s2 : AnalyzerState)
    (h : body (constraintScopeEnter c s).1 = (r, s2)) :
    runWithScope c s body =
      (r, constraintScopeRelease (constraintScopeEnter c s).2 s2,
        [ScopeEvent.enter c, ScopeEvent.release (constraintScopeEnter c s).2]) := by
  cases r with
  | ok v => simp only [runWithScope, h]
  | exn e => simp only [runWithScope, h]

/-- Witness for C2 at a concrete erroring body on a fresh analyzer. -/
theorem constraint_scope_release_exactly_once_witness :
    runWithScope (Expr.lt (Expr.var 0) (Expr.const 7)) Analyzer.init
        (fun st => ((PyResult.exn PyErr.typeError : PyResult Nat), st)) =
      ((PyResult.exn PyErr.typeError : PyResult Nat),
        constraintScopeRelease
          (constraintScopeEnter (Expr.lt (Expr.var 0) (Expr.const 7)) Analyzer.init).2
          (constraintScopeEnter (Expr.lt (Expr.var 0) (Expr.const 7)) Analyzer.init).1,
        [ScopeEvent.enter (Expr.lt (Expr.var 0) (Expr.const 7)),
          ScopeEvent.release
            (constraintScopeEnter (Expr.lt (Expr.var 0) (Expr.const 7)) Analyzer.init).2]) :=
  constraint_scope_release_exactly_once (Expr.lt (Expr.var 0) (Expr.const 7))
    Analyzer.init (fun st => ((PyResult.exn PyErr.typeError : PyResult Nat), st))
    (PyResult.exn PyErr.typeError)
    (constraintScopeEnter (Expr.lt (Expr.var 0) (Expr.const 7)) Analyzer.init).1
    rfl

/-- Entering a scope and then running its release restores the whole analyzer
state: the appended constraint is truncated away and the bound store is
untouched. -/
theorem scope_enter_release_restores (c : Expr) (s : AnalyzerState) :
    constraintScopeRelease (constraintScopeEnter c s).2
      (constraintScopeEnter c s).1 = s := by
  cases s with
  | mk bs cs =>
    simp only [constraintScopeEnter, constraintScopeRelease, AnalyzerState.mk.injEq,
      true_and]
    exact List.take_left cs [c]

/-- C3: scope isolation.  For any variable `x`, any constraint `c` and any
body that only queries the analyzer (its final state is the state it was
given), `modular_set(x)` observed before entering `constraint_scope(c)` equals
`modular_set(x)` observed after the scope exits: push then pop leaves no
residual change to the analyzer's answers. -/
theorem constraint_scope_isolation_modular_set {α : Type} (x : Nat) (c : Expr)
    (s : AnalyzerState) (body : AnalyzerState → PyResult α × AnalyzerState)
    (r : PyResult α)
    (h : body (constraintScopeEnter c s).1 = (r, (constraintScopeEnter c s).1)) :
    Analyzer.modular_set (runWithScope c s body).2.1 (Expr.var x) =
      Analyzer.modular_set s (Expr.var x) := by
  have hfin : (runWithScope c s body).2.1 = s := by
    have := constraint_scope_release_exactly_once c s body r
      (constraintScopeEnter c s).1 h
    rw [this]
    exact scope_enter_release_restores c s
  rw [hfin]

/-- Witness for C3: concrete query-only body, constraint `x % 3 == 0` on a
fresh analyzer. -/
theorem constraint_scope_isolation_modular_set_witness :
    Analyzer.modular_set
        (runWithScope
          (Expr.eq (Expr.mod (Expr.var 0) (Expr.const 3)) (Expr.const 0))
          Analyzer.init
          (fun st => ((PyResult.ok 0 : PyResult Nat), st))).2.1
        (Expr.var 0) =
      Analyzer.modular_set Analyzer.init (Expr.var 0) :=
  constraint_scope_isolation_modular_set 0
    (Expr.eq (Expr.mod (Expr.var 0) (Expr.const 3)) (Expr.const 0))
    Analyzer.init (fun st => ((PyResult.ok 0 : PyResult Nat), st))
    (PyResult.ok 0) rfl

/-- C4: with no stronger prior modular fact about `x` (its modular set is the
trivial `{1, 0}`), inside `constraint_scope(x % 3 == 0)` the query
`modular_set(x)` has `coeff = 3`, and immediately after the scope exits the
coefficient is no longer 3 (it reverts to the prior knowledge, coefficient
1). -/
theorem modular_set_coeff_inside_and_after_scope (x : Nat) (s : AnalyzerState)
    (h : Analyzer.modular_set s (Expr.var x) = ⟨1, 0⟩) :
    (Analyzer.modular_set
        (constraintScopeEnter
          (Expr.eq (Expr.mod (Expr.var x) (Expr.const 3)) (Expr.const 0)) s).1
        (Expr.var x)).coeff = 3 ∧
    (Analyzer.modular_set
        (constraintScopeRelease
          (constraintScopeEnter
            (Expr.eq (Expr.mod (Expr.var x) (Expr.const 3)) (Expr.const 0)) s).2
          (constraintScopeEnter
            (Expr.eq (Expr.mod (Expr.var x) (Expr.const 3)) (Expr.const 0)) s).1)
        (Expr.var x)).coeff ≠ 3 := by
  constructor
  · simp only [Analyzer.modular_set, constraintScopeEnter, varModular,
      List.reverse_append, List.reverse_cons, List.reverse_nil, List.nil_append,
      List.singleton_append, List.findSome?_cons, constraintModular]
    norm_num
  · rw [scope_enter_release_restores, h]
    norm_num

/-- Witness for C4: a fresh analyzer, variable 0. -/
theorem modular_set_coeff_inside_and_after_scope_witness :
    (Analyzer.modular_set
        (constraintScopeEnter
          (Expr.eq (Expr.mod (Expr.var 0) (Expr.const 3)) (Expr.const 0))
          Analyzer.init).1
        (Expr.var 0)).coeff = 3 ∧
    (Analyzer.modular_set
        (constraintScopeRelease
          (constraintScopeEnter
            (Expr.eq (Expr.mod (Expr.var 0) (Expr.const 3)) (Expr.const 0))
            Analyzer.init).2
          (constraintScopeEnter
            (Expr.eq (Expr.mod (Expr.var 0) (Expr.const 3)) (Expr.const 0))
            Analyzer.init).1)
        (Expr.var 0)).coeff ≠ 3 :=
  modular_set_coeff_inside_and_after_scope 0 Analyzer.init rfl

/-- The two sentinels are ordered. -/
theorem neg_inf_le_pos_inf : ConstIntBound.NEG_INF ≤ ConstIntBound.POS_INF := by
  decide

/-- Saturation is monotone. -/
theorem satClamp_mono {a b : Int} (h : a ≤ b) : satClamp a ≤ satClamp b := by
  have hinf := neg_inf_le_pos_inf
  unfold satClamp
  split_ifs <;> omega

/-- Well-formed fact store: every stored bound fact already satisfies the
`ConstIntBound` invariant `min_value <= max_value`. -/
def WFState (s : AnalyzerState) : Prop :=
  ∀ v b, lookupFact s.bounds v = some b → b.min_value ≤ b.max_value

/-- C5: for every expression and every analyzer state whose stored facts
respect the `ConstIntBound` invariant, the bound returned by
`const_int_bound` satisfies `min_value <= max_value`. -/
theorem const_int_bound_min_le_max (s : AnalyzerState) (e : Expr)
    (hwf : WFState s) :
    (Analyzer.const_int_bound s e).min_value ≤
      (Analyzer.const_int_bound s e).max_value := by
  have hinf := neg_inf_le_pos_inf
  induction e with
  | var i =>
    simp only [Analyzer.const_int_bound]
    rcases hl : lookupFact s.bounds i with _ | b
    · exact hinf
    · exact hwf i b hl
  | const v => exact le_refl _
  | add a b iha ihb =>
    exact satClamp_mono (add_le_add iha ihb)
  | sub a b iha ihb =>
    exact satClamp_mono (sub_le_sub iha ihb)
  | mul a b iha ihb =>
    simp only [Analyzer.const_int_bound, boundMul]
    exact satClamp_mono
      (le_trans (le_trans (min_le_left _ _) (min_le_left _ _))
        (le_trans (le_max_left _ _) (le_max_left _ _)))
  | div a b iha ihb =>
    simp only [Analyzer.const_int_bound, boundDiv]
    split_ifs
    · exact hinf
    · exact satClamp_mono
        (le_trans (le_trans (min_le_left _ _) (min_le_left _ _))
          (le_trans (le_max_left _ _) (le_max_left _ _)))
  | mod a b iha ihb =>
    simp only [Analyzer.const_int_bound, boundMod]
    split_ifs with hz
    · exact hinf
    · refine satClamp_mono ?_
      have h1 : (Analyzer.const_int_bound s b).max_value ≤
          max (Analyzer.const_int_bound s b).max_value
            (-(Analyzer.const_int_bound s b).min_value) := le_max_left _ _
      have h2 : -(Analyzer.const_int_bound s b).min_value ≤
          max (Analyzer.const_int_bound s b).max_value
            (-(Analyzer.const_int_bound s b).min_value) := le_max_right _ _
      omega
  | lt a b iha ihb => exact one_pos.le
  | le a b iha ihb => exact one_pos.le
  | eq a b iha ihb => exact one_pos.le

/-- Witness for C5: a fresh analyzer (whose empty store is trivially
well-formed) and a compound concrete expression. -/
theorem const_int_bound_min_le_max_witness :
    WFState Analyzer.init ∧
    (Analyzer.const_int_bound Analyzer.init
        (Expr.add (Expr.var 0) (Expr.const 1))).min_value ≤
      (Analyzer.const_int_bound Analyzer.init
        (Expr.add (Expr.var 0) (Expr.const 1))).max_value :=
  ⟨fun v b h => Option.noConfusion h,
    const_int_bound_min_le_max Analyzer.init
      (Expr.add (Expr.var 0) (Expr.const 1))
      (fun v b h => Option.noConfusion h)⟩

/-- C6: `const_int_bound` is total — in this embedding it is a total function
returning a `ConstIntBound` for every expression, never an exception — and
for a variable with no stored fact it returns the full range
`[NEG_INF, POS_INF]`; in particular this holds for any fresh variable on a
fresh analyzer. -/
theorem const_int_bound_total_fresh_var (s : AnalyzerState) (x : Nat)
    (h : lookupFact s.bounds x = none) :
    Analyzer.const_int_bound s (Expr.var x) =
      ⟨ConstIntBound.NEG_INF, ConstIntBound.POS_INF⟩ := by
  simp only [Analyzer.const_int_bound, h]

/-- Witness for C6: fresh variable on a fresh analyzer. -/
theorem const_int_bound_total_fresh_var_witness :
    Analyzer.const_int_bound Analyzer.init (Expr.var 0) =
      ⟨ConstIntBound.NEG_INF, ConstIntBound.POS_INF⟩ :=
  const_int_bound_total_fresh_var Analyzer.init 0 rfl

/-- The literal integer carried by an expression node, if it is a constant
node. -/
def getConst : Expr → Option Int
  | Expr.const v => some v
  | _ => none

/-- Rewrite rules for `+`: constant folding and identity elimination. -/
def mkAdd (a b : Expr) : Expr :=
  match getConst a, getConst b with
  | some x, some y => Expr.const (x + y)
  | some x, none => if x = 0 then b else Expr.add a b
  | none, some y => if y = 0 then a else Expr.add a b
  | none, none => Expr.add a b

/-- Rewrite rules for `-`: constant folding and identity elimination. -/
def mkSub (a b : Expr) : Expr :=
  match getConst a, getConst b with
  | some x, some y => Expr.const (x - y)
  | none, some y => if y = 0 then a else Expr.sub a b
  | _, _ => Expr.sub a b

/-- Rewrite rules for `*`: constant folding, annihilation by 0 and identity
elimination. -/
def mkMul (a b : Expr) : Expr :=
  match getConst a, getConst b with
  | some x, some y => Expr.const (x * y)
  | some x, none =>
    if x = 0 then Expr.const 0 else if x = 1 then b else Expr.mul a b
  | none, some y =>
    if y = 0 then Expr.const 0 else if y = 1 then a else Expr.mul a b
  | none, none => Expr.mul a b

/-- Rewrite rule for `/`: constant folding when the divisor constant is
non-zero (truncated division, matching the engine). -/
def mkDiv (a b : Expr) : Expr :=
  match getConst a, getConst b with
  | some x, some y => if y = 0 then Expr.div a b else Expr.const (Int.tdiv x y)
  | _, _ => Expr.div a b

/-- Rewrite rule for `%`: constant folding when the divisor constant is
non-zero. -/
def mkMod (a b : Expr) : Expr :=
  match getConst a, getConst b with
  | some x, some y => if y = 0 then Expr.mod a b else Expr.const (Int.tmod x y)
  | _, _ => Expr.mod a b

/-- Bound-justified comparison elimination (spec 4.5): `a < b` becomes the
constant true (1) when the bound of `a` lies strictly below the bound of `b`
under the current facts, and the constant false (0) when the bound of `b`
lies at or below the bound of `a`. -/
def mkLT (s : AnalyzerState) (a b : Expr) : Expr :=
  if (Analyzer.const_int_bound s a).max_value <
      (Analyzer.const_int_bound s b).min_value then Expr.const 1
  else if (Analyzer.const_int_bound s b).max_value ≤
      (Analyzer.const_int_bound s a).min_value then Expr.const 0
  else Expr.lt a b

/-- Modelled from the spec: one bottom-up pass of the fixed local rewrite-rule
table (spec 4.5): children first, then the node's own rules, consulting the
current fact state for the bound-justified rules. -/
def simpStep (s : AnalyzerState) : Expr → Expr
  | Expr.var i => Expr.var i
  | Expr.const v => Expr.const v
  | Expr.add a b => mkAdd (simpStep s a) (simpStep s b)
  | Expr.sub a b => mkSub (simpStep s a) (simpStep s b)
  | Expr.mul a b => mkMul (simpStep s a) (simpStep s b)
  | Expr.div a b => mkDiv (simpStep s a) (simpStep s b)
  | Expr.mod a b => mkMod (simpStep s a) (simpStep s b)
  | Expr.lt a b => mkLT s (simpStep s a) (simpStep s b)
  | Expr.le a b => Expr.le (simpStep s a) (simpStep s b)
  | Expr.eq a b => Expr.eq (simpStep s a) (simpStep s b)

/-- Node count of an expression, the fuel bound for rule iteration. -/
def exprSize : Expr → Nat
  | Expr.var _ => 1
  | Expr.const _ => 1
  | Expr.add a b => exprSize a + exprSize b + 1
  | Expr.sub a b => exprSize a + exprSize b + 1
  | Expr.mul a b => exprSize a + exprSize b + 1
  | Expr.div a b => exprSize a + exprSize b + 1
  | Expr.mod a b => exprSize a + exprSize b + 1
  | Expr.lt a b => exprSize a + exprSize b + 1
  | Expr.le a b => exprSize a + exprSize b + 1
  | Expr.eq a b => exprSize a + exprSize b + 1

/-- Iterate rewrite passes until a fixed point is reached or the fuel runs
out. -/
def simpIter (s : AnalyzerState) : Nat → Expr → Expr
  | 0, e => e
  | Nat.succ n, e =>
    let e1 := simpStep s e
    if e1 = e then e else simpIter s n e1

/-- Modelled from the spec: the native `rewrite_simplify` behind
`Analyzer.rewrite_simplify` (`arith.py` lines 133-146): apply the local rule
table bottom-up until a fixed point (one bottom-up pass of this table already
reaches it, as proved below). -/
def Analyzer.rewrite_simplify (s : AnalyzerState) (e : Expr) : Expr :=
  simpIter s (exprSize e) (simpStep s e)

/-- Canonical linear form: constant term plus coefficient-weighted variables,
keyed by variable id in strictly ascending order with non-zero
coefficients. -/
structure LinForm where
  terms : List (Nat × Int)
  cst : Int
deriving DecidableEq

/-- Insert a coefficient-weighted variable into a key-sorted term list,
combining coefficients on key collision and dropping terms that cancel. -/
def insertTerm (t : Nat × Int) : List (Nat × Int) → List (Nat × Int)
  | [] => [t]
  | u :: rest =>
    if t.1 < u.1 then t :: u :: rest
    else if u.1 < t.1 then u :: insertTerm t rest
    else if t.2 + u.2 = 0 then rest else (t.1, t.2 + u.2) :: rest

/-- Combine two sorted term lists. -/
def addTerms (l1 l2 : List (Nat × Int)) : List (Nat × Int) :=
  l1.foldr insertTerm l2

/-- Scale a term list by a constant. -/
def scaleTerms (k : Int) (l : List (Nat × Int)) : List (Nat × Int) :=
  if k = 0 then [] else l.map (fun t => (t.1, k * t.2))

/-- Normalization of a linear expression into its canonical form (spec 4.6):
term reordering and coefficient combination across `+`, `-` and
multiplication by a semantically-constant factor; any other node kind is not
canonicalizable. -/
def linearize : Expr → Option LinForm
  | Expr.var i => some ⟨[(i, 1)], 0⟩
  | Expr.const v => some ⟨[], v⟩
  | Expr.add a b =>
    match linearize a, linearize b with
    | some p, some q => some ⟨addTerms p.terms q.terms, p.cst + q.cst⟩
    | _, _ => none
  | Expr.sub a b =>
    match linearize a, linearize b with
    | some p, some q =>
      some ⟨addTerms p.terms (scaleTerms (-1) q.terms), p.cst - q.cst⟩
    | _, _ => none
  | Expr.mul a b =>
    match linearize a, linearize b with
    | some p, some q =>
      if p.terms = [] then some ⟨scaleTerms p.cst q.terms, p.cst * q.cst⟩
      else if q.terms = [] then some ⟨scaleTerms q.cst p.terms, q.cst * p.cst⟩
      else none
    | _, _ => none
  | _ => none

/-- Emit one canonical term: a bare variable for coefficient 1, otherwise a
constant-times-variable product. -/
def emitTerm (t : Nat × Int) : Expr :=
  if t.2 = 1 then Expr.var t.1 else Expr.mul (Expr.const t.2) (Expr.var t.1)

/-- Emit a left-nested sum of canonical terms onto an accumulator. -/
def emitSum (acc : Expr) : List (Nat × Int) → Expr
  | [] => acc
  | t :: ts => emitSum (Expr.add acc (emitTerm t)) ts

/-- Rebuild the canonical expression of a linear form: the ordered terms,
then the constant (omitted when zero, unless it is the whole form). -/
def LinForm.emit (p : LinForm) : Expr :=
  match p.terms with
  | [] => Expr.const p.cst
  | t :: ts =>
    if p.cst = 0 then emitSum (emitTerm t) ts
    else Expr.add (emitSum (emitTerm t) ts) (Expr.const p.cst)

/-- Modelled from the spec: the native `canonical_simplify` behind
`Analyzer.canonical_simplify` (`arith.py` lines 148-161): normalize the
rewrite-simplified expression into the canonical polynomial-like form and
rebuild it; fall back to the rewrite-simplifier output when the expression
does not canonicalize. -/
def Analyzer.canonical_simplify (s : AnalyzerState) (e : Expr) : Expr :=
  match linearize (Analyzer.rewrite_simplify s e) with
  | some p => LinForm.emit p
  | none => Analyzer.rewrite_simplify s e

/-- A `+` node rebuilt from already-simplified children is stable under
another rewrite pass. -/
theorem simpStep_mkAdd (s : AnalyzerState) {a b : Expr}
    (ha : simpStep s a = a) (hb : simpStep s b = b) :
    simpStep s (mkAdd a b) = mkAdd a b := by
  rcases hga : getConst a with _ | x <;> rcases hgb : getConst b with _ | y
  · simp only [mkAdd, hga, hgb, simpStep, ha, hb]
  · by_cases hy : y = 0
    · subst hy
      simp only [mkAdd, hga, hgb, if_pos rfl]
      exact ha
    · simp only [mkAdd, hga, hgb, if_neg hy, simpStep, ha, hb]
  · by_cases hx : x = 0
    · subst hx
      simp only [mkAdd, hga, hgb, if_pos rfl]
      exact hb
    · simp only [mkAdd, hga, hgb, if_neg hx, simpStep, ha, hb]
  · simp only [mkAdd, hga, hgb, simpStep]

/-- A `-` node rebuilt from already-simplified children is stable under
another rewrite pass. -/
theorem simpStep_mkSub (s : AnalyzerState) {a b : Expr}
    (ha : simpStep s a = a) (hb : simpStep s b = b) :
    simpStep s (mkSub a b) = mkSub a b := by
  rcases hga : getConst a with _ | x <;> rcases hgb : getConst b with _ | y
  · simp only [mkSub, hga, hgb, simpStep, ha, hb]
  · by_cases hy : y = 0
    · subst hy
      simp only [mkSub, hga, hgb, if_pos rfl]
      exact ha
    · simp only [mkSub, hga, hgb, if_neg hy, simpStep, ha, hb]
  · simp only [mkSub, hga, hgb, simpStep, ha, hb]
  · simp only [mkSub, hga, hgb, simpStep]

/-- A `*` node rebuilt from already-simplified children is stable under
another rewrite pass. -/
theorem simpStep_mkMul (s : AnalyzerState) {a b : Expr}
    (ha : simpStep s a = a) (hb : simpStep s b = b) :
    simpStep s (mkMul a b) = mkMul a b := by
  rcases hga : getConst a with _ | x <;> rcases hgb : getConst b with _ | y
  · simp only [mkMul, hga, hgb, simpStep, ha, hb]
  · by_cases hy : y = 0
    · subst hy
      simp only [mkMul, hga, hgb, if_pos rfl, simpStep, if_true]
    · by_cases hy1 : y = 1
      · subst hy1
        simp only [mkMul, hga, hgb, if_neg hy, if_pos rfl]
        exact ha
      · simp only [mkMul, hga, hgb, if_neg hy, if_neg hy1, simpStep, ha, hb]
  · by_cases hx : x = 0
    · subst hx
      simp only [mkMul, hga, hgb, if_pos rfl, simpStep, if_true]
    · by_cases hx1 : x = 1
      · subst hx1
        simp only [mkMul, hga, hgb, if_neg hx, if_pos rfl]
        exact hb
      · simp only [mkMul, hga, hgb, if_neg hx, if_neg hx1, simpStep, ha, hb]
  · simp only [mkMul, hga, hgb, simpStep]

/-- A `/` node rebuilt from already-simplified children is stable under
another rewrite pass. -/
theorem simpStep_mkDiv (s : AnalyzerState) {a b : Expr}
    (ha : simpStep s a = a) (hb : simpStep s b = b) :
    simpStep s (mkDiv a b) = mkDiv a b := by
  rcases hga : getConst a with _ | x <;> rcases hgb : getConst b with _ | y
  · simp only [mkDiv, hga, hgb, simpStep, ha, hb]
  · simp only [mkDiv, hga, hgb, simpStep, ha, hb]
  · simp only [mkDiv, hga, hgb, simpStep, ha, hb]
  · by_cases hy : y = 0
    · subst hy
      simp only [mkDiv, hga, hgb, if_pos rfl, simpStep, ha, hb]
    · simp only [mkDiv, hga, hgb, if_neg hy, simpStep]

/-- A `%` node rebuilt from already-simplified children is stable under
another rewrite pass. -/
theorem simpStep_mkMod (s : AnalyzerState) {a b : Expr}
    (ha : simpStep s a = a) (hb : simpStep s b = b) :
    simpStep s (mkMod a b) = mkMod a b := by
  rcases hga : getConst a with _ | x <;> rcases hgb : getConst b with _ | y
  · simp only [mkMod, hga, hgb, simpStep, ha, hb]
  · simp only [mkMod, hga, hgb, simpStep, ha, hb]
  · simp only [mkMod, hga, hgb, simpStep, ha, hb]
  · by_cases hy : y = 0
    · subst hy
      simp only [mkMod, hga, hgb, if_pos rfl, simpStep, ha, hb]
    · simp only [mkMod, hga, hgb, if_neg hy, simpStep]

/-- A `<` node rebuilt from already-simplified children is stable under
another rewrite pass: the bound conditions are re-evaluated against the same
fact state and decide the same way. -/
theorem simpStep_mkLT (s : AnalyzerState) {a b : Expr}
    (ha : simpStep s a = a) (hb : simpStep s b = b) :
    simpStep s (mkLT s a b) = mkLT s a b := by
  unfold mkLT
  split_ifs with h1 h2
  · rfl
  · rfl
  · simp only [simpStep, ha, hb, mkLT, if_neg h1, if_neg h2]

/-- One bottom-up pass of the rule table reaches a fixed point of itself. -/
theorem simpStep_idem (s : AnalyzerState) (e : Expr) :
    simpStep s (simpStep s e) = simpStep s e := by
  induction e with
  | var i => rfl
  | const v => rfl
  | add a b iha ihb => exact simpStep_mkAdd s iha ihb
  | sub a b iha ihb => exact simpStep_mkSub s iha ihb
  | mul a b iha ihb => exact simpStep_mkMul s iha ihb
  | div a b iha ihb => exact simpStep_mkDiv s iha ihb
  | mod a b iha ihb => exact simpStep_mkMod s iha ihb
  | lt a b iha ihb => exact simpStep_mkLT s iha ihb
  | le a b iha ihb => simp only [simpStep, iha, ihb]
  | eq a b iha ihb => simp only [simpStep, iha, ihb]

/-- The fueled iteration stops immediately at the fixed point the first pass
produces, so `rewrite_simplify` is exactly one bottom-up pass. -/
theorem rewrite_simplify_eq_simpStep (s : AnalyzerState) (e : Expr) :
    Analyzer.rewrite_simplify s e = simpStep s e := by
  unfold Analyzer.rewrite_simplify
  cases exprSize e with
  | zero => rfl
  | succ n =>
    show simpIter s (Nat.succ n) (simpStep s e) = simpStep s e
    simp only [simpIter, simpStep_idem s e, if_pos rfl, if_true]

/-- Key order between canonical terms. -/
def keyLT (u t : Nat × Int) : Prop := u.1 < t.1

/-- Well-formed canonical term list: strictly ascending variable keys and
non-zero coefficients. -/
def TermsWf (l : List (Nat × Int)) : Prop :=
  l.Pairwise keyLT ∧ ∀ t ∈ l, t.2 ≠ 0

/-- Every key in an insertion result comes from the inserted term or from the
original list. -/
theorem insertTerm_keys (t : Nat × Int) (l : List (Nat × Int)) :
    ∀ x ∈ insertTerm t l, x.1 = t.1 ∨ ∃ y ∈ l, x.1 = y.1 := by
  induction l with
  | nil =>
    intro x hx
    simp only [insertTerm, List.mem_singleton] at hx
    exact Or.inl (by rw [hx])
  | cons u rest ih =>
    intro x hx
    simp only [insertTerm] at hx
    split_ifs at hx with h1 h2 h3
    · rcases List.mem_cons.mp hx with h | h
      · exact Or.inl (by rw [h])
      · exact Or.inr ⟨x, h, rfl⟩
    · rcases List.mem_cons.mp hx with h | h
      · exact Or.inr ⟨u, List.mem_cons_self u rest, by rw [h]⟩
      · rcases ih x h with h' | ⟨y, hy, h'⟩
        · exact Or.inl h'
        · exact Or.inr ⟨y, List.mem_cons_of_mem u hy, h'⟩
    · exact Or.inr ⟨x, List.mem_cons_of_mem u hx, rfl⟩
    · rcases List.mem_cons.mp hx with h | h
      · exact Or.inl (by rw [h])
      · exact Or.inr ⟨x, List.mem_cons_of_mem u h, rfl⟩

/-- Insertion of a non-cancelled term preserves well-formedness. -/
theorem insertTerm_wf {t : Nat × Int} (ht : t.2 ≠ 0) :
    ∀ {l : List (Nat × Int)}, TermsWf l → TermsWf (insertTerm t l) := by
  intro l
  induction l with
  | nil =>
    intro _
    refine ⟨?_, ?_⟩
    · simp [insertTerm]
    · intro x hx
      simp only [insertTerm, List.mem_singleton] at hx
      rw [hx]
      exact ht
  | cons u rest ih =>
    intro hl
    obtain ⟨hp, hz⟩ := hl
    rw [List.pairwise_cons] at hp
    obtain ⟨hu, hrest⟩ := hp
    have hzrest : ∀ x ∈ rest, x.2 ≠ 0 :=
      fun x hx => hz x (List.mem_cons_of_mem u hx)
    have hwrest : TermsWf rest := ⟨hrest, hzrest⟩
    simp only [insertTerm]
    split_ifs with h1 h2 h3
    · refine ⟨?_, ?_⟩
      · rw [List.pairwise_cons]
        refine ⟨?_, List.pairwise_cons.mpr ⟨hu, hrest⟩⟩
        intro x hx
        rcases List.mem_cons.mp hx with h | h
        · show t.1 < x.1
          rw [h]
          exact h1
        · exact lt_trans h1 (hu x h)
      · intro x hx
        rcases List.mem_cons.mp hx with h | h
        · rw [h]; exact ht
        · exact hz x h
    · refine ⟨?_, ?_⟩
      · rw [List.pairwise_cons]
        refine ⟨?_, (ih hwrest).1⟩
        intro x hx
        show u.1 < x.1
        rcases insertTerm_keys t rest x hx with h | ⟨y, hy, h⟩
        · rw [h]; exact h2
        · rw [h]; exact hu y hy
      · intro x hx
        rcases List.mem_cons.mp hx with h | h
        · rw [h]; exact hz u (List.mem_cons_self u rest)
        · exact (ih hwrest).2 x h
    · exact hwrest
    · have hek : t.1 = u.1 := by omega
      refine ⟨?_, ?_⟩
      · rw [List.pairwise_cons]
        refine ⟨?_, hrest⟩
        intro x hx
        show t.1 < x.1
        rw [hek]
        exact hu x hx
      · intro x hx
        rcases List.mem_cons.mp hx with h | h
        · rw [h]; exact h3
        · exact hzrest x h

/-- Merging two well-formed term lists yields a well-formed term list. -/
theorem addTerms_wf : ∀ {l1 l2 : List (Nat × Int)},
    TermsWf l1 → TermsWf l2 → TermsWf (addTerms l1 l2) := by
  intro l1
  induction l1 with
  | nil => intro l2 _ h2; exact h2
  | cons t rest ih =>
    intro l2 h1 h2
    obtain ⟨hp, hz⟩ := h1
    rw [List.pairwise_cons] at hp
    show TermsWf (insertTerm t (addTerms rest l2))
    exact insertTerm_wf (hz t (List.mem_cons_self t rest))
      (ih ⟨hp.2, fun x hx => hz x (List.mem_cons_of_mem t hx)⟩ h2)

/-- Scaling a well-formed term list yields a well-formed term list. -/
theorem scaleTerms_wf (k : Int) {l : List (Nat × Int)} (hl : TermsWf l) :
    TermsWf (scaleTerms k l) := by
  unfold scaleTerms
  split_ifs with hk
  · exact ⟨List.Pairwise.nil, by intro t ht; cases ht⟩
  · refine ⟨?_, ?_⟩
    · refine List.pairwise_map.mpr (hl.1.imp ?_)
      intro a b h
      exact h
    · intro t ht
      rw [List.mem_map] at ht
      obtain ⟨a, ha, rfl⟩ := ht
      exact mul_ne_zero hk (hl.2 a ha)

/-- Canonicalization always produces a well-formed linear form. -/
theorem linearize_wf : ∀ {e : Expr} {p : LinForm},
    linearize e = some p → TermsWf p.terms := by
  intro e
  induction e with
  | var i =>
    intro p h
    simp only [linearize, Option.some.injEq] at h
    rw [← h]
    refine ⟨by simp, ?_⟩
    intro t ht
    simp only [List.mem_singleton] at ht
    rw [ht]
    show (1 : Int) ≠ 0
    exact one_ne_zero
  | const v =>
    intro p h
    simp only [linearize, Option.some.injEq] at h
    rw [← h]
    exact ⟨List.Pairwise.nil, by intro t ht; cases ht⟩
  | add a b iha ihb =>
    intro p h
    simp only [linearize] at h
    rcases ha' : linearize a with _ | pa <;> rw [ha'] at h
    · exact Option.noConfusion h
    rcases hb' : linearize b with _ | pb <;> rw [hb'] at h
    · exact Option.noConfusion h
    simp only [Option.some.injEq] at h
    rw [← h]
    exact addTerms_wf (iha ha') (ihb hb')
  | sub a b iha ihb =>
    intro p h
    simp only [linearize] at h
    rcases ha' : linearize a with _ | pa <;> rw [ha'] at h
    · exact Option.noConfusion h
    rcases hb' : linearize b with _ | pb <;> rw [hb'] at h
    · exact Option.noConfusion h
    simp only [Option.some.injEq] at h
    rw [← h]
    exact addTerms_wf (iha ha') (scaleTerms_wf (-1) (ihb hb'))
  | mul a b iha ihb =>
    intro p h
    simp only [linearize] at h
    rcases ha' : linearize a with _ | pa <;> rw [ha'] at h
    · exact Option.noConfusion h
    rcases hb' : linearize b with _ | pb <;> rw [hb'] at h
    · exact Option.noConfusion h
    have h' : (if pa.terms = [] then
        some (⟨scaleTerms pa.cst pb.terms, pa.cst * pb.cst⟩ : LinForm)
      else if pb.terms = [] then
        some (⟨scaleTerms pb.cst pa.terms, pb.cst * pa.cst⟩ : LinForm)
      else none) = some p := h
    split_ifs at h' with h1 h2
    · simp only [Option.some.injEq] at h'
      rw [← h']
      exact scaleTerms_wf pa.cst (ihb hb')
    · simp only [Option.some.injEq] at h'
      rw [← h']
      exact scaleTerms_wf pb.cst (iha ha')
  | div a b iha ihb => intro p h; exact Option.noConfusion h
  | mod a b iha ihb => intro p h; exact Option.noConfusion h
  | lt a b iha ihb => intro p h; exact Option.noConfusion h
  | le a b iha ihb => intro p h; exact Option.noConfusion h
  | eq a b iha ihb => intro p h; exact Option.noConfusion h

/-- Inserting a term whose key is below every key of the list prepends it. -/
theorem insertTerm_front {t : Nat × Int} {l : List (Nat × Int)}
    (h : ∀ x ∈ l, t.1 < x.1) : insertTerm t l = t :: l := by
  cases l with
  | nil => rfl
  | cons u rest =>
    simp only [insertTerm, if_pos (h u (List.mem_cons_self u rest))]

/-- Merging sorted lists whose concatenation is already sorted is
concatenation. -/
theorem addTerms_append : ∀ {l l2 : List (Nat × Int)},
    (l ++ l2).Pairwise keyLT → addTerms l l2 = l ++ l2 := by
  intro l
  induction l with
  | nil => intro l2 _; rfl
  | cons t rest ih =>
    intro l2 h
    rw [List.cons_append, List.pairwise_cons] at h
    obtain ⟨ht, hrest⟩ := h
    show insertTerm t (addTerms rest l2) = t :: (rest ++ l2)
    rw [ih hrest, insertTerm_front]
    intro x hx
    exact ht x hx

/-- An emitted canonical term is never a literal constant node. -/
theorem getConst_emitTerm (t : Nat × Int) : getConst (emitTerm t) = none := by
  unfold emitTerm
  split_ifs <;> rfl

/-- An emitted canonical term is stable under a rewrite pass. -/
theorem simpStep_emitTerm (s : AnalyzerState) {t : Nat × Int} (ht : t.2 ≠ 0) :
    simpStep s (emitTerm t) = emitTerm t := by
  unfold emitTerm
  split_ifs with h1
  · rfl
  · simp only [simpStep, mkMul, getConst, if_neg ht, if_neg h1]

/-- Canonicalizing an emitted term recovers exactly that term. -/
theorem linearize_emitTerm {t : Nat × Int} (ht : t.2 ≠ 0) :
    linearize (emitTerm t) = some ⟨[t], 0⟩ := by
  unfold emitTerm
  split_ifs with h1
  · simp only [linearize, Option.some.injEq, LinForm.mk.injEq, and_true]
    rw [← h1, Prod.mk.eta]
  · simp only [linearize, scaleTerms, if_neg ht, List.map_cons, List.map_nil,
      mul_one, mul_zero, Option.some.injEq, LinForm.mk.injEq, if_pos rfl,
      and_true]
    rw [Prod.mk.eta]
    simp only [if_true]

/-- An emitted sum of canonical terms over a stable non-constant accumulator
is stable under a rewrite pass and is itself non-constant. -/
theorem emitSum_fixed (s : AnalyzerState) : ∀ (ts : List (Nat × Int))
    (acc : Expr), simpStep s acc = acc → getConst acc = none →
    (∀ t ∈ ts, t.2 ≠ 0) →
    simpStep s (emitSum acc ts) = emitSum acc ts ∧
      getConst (emitSum acc ts) = none := by
  intro ts
  induction ts with
  | nil => intro acc hacc hc _; exact ⟨hacc, hc⟩
  | cons t rest ih =>
    intro acc hacc hc hz
    have ht : t.2 ≠ 0 := hz t (List.mem_cons_self t rest)
    show simpStep s (emitSum (Expr.add acc (emitTerm t)) rest) = _ ∧ _
    refine ih (Expr.add acc (emitTerm t)) ?_ rfl ?_
    · simp only [simpStep, hacc, simpStep_emitTerm s ht, mkAdd, hc,
        getConst_emitTerm]
    · intro x hx
      exact hz x (List.mem_cons_of_mem t hx)

/-- Canonicalizing an emitted sum appends its terms to those of the
accumulator. -/
theorem linearize_emitSum : ∀ (ts ts0 : List (Nat × Int)) (acc : Expr),
    linearize acc = some ⟨ts0, 0⟩ → (ts0 ++ ts).Pairwise keyLT →
    (∀ t ∈ ts0 ++ ts, t.2 ≠ 0) →
    linearize (emitSum acc ts) = some ⟨ts0 ++ ts, 0⟩ := by
  intro ts
  induction ts with
  | nil =>
    intro ts0 acc hacc _ _
    rw [List.append_nil]
    exact hacc
  | cons t rest ih =>
    intro ts0 acc hacc hsort hz
    have ht : t.2 ≠ 0 := hz t (by simp)
    have hstep : linearize (Expr.add acc (emitTerm t)) =
        some ⟨ts0 ++ [t], 0⟩ := by
      simp only [linearize, hacc, linearize_emitTerm ht, Option.some.injEq,
        LinForm.mk.injEq, add_zero, and_true]
      refine addTerms_append ?_
      have hsub : (ts0 ++ [t]).Sublist (ts0 ++ t :: rest) :=
        List.Sublist.append_left (by simp) ts0
      exact hsort.sublist hsub
    show linearize (emitSum (Expr.add acc (emitTerm t)) rest) = _
    have hassoc : ts0 ++ t :: rest = (ts0 ++ [t]) ++ rest := by simp
    rw [hassoc]
    refine ih (ts0 ++ [t]) (Expr.add acc (emitTerm t)) hstep ?_ ?_
    · rw [← hassoc]; exact hsort
    · rw [← hassoc]; exact hz

/-- The canonical expression of a well-formed linear form is stable under a
rewrite pass. -/
theorem emit_fixed (s : AnalyzerState) {p : LinForm} (hwf : TermsWf p.terms) :
    simpStep s (LinForm.emit p) = LinForm.emit p := by
  obtain ⟨terms, cst⟩ := p
  cases terms with
  | nil => rfl
  | cons t ts =>
    obtain ⟨hsort, hz⟩ := hwf
    have ht : t.2 ≠ 0 := hz t (by simp)
    have hbase := emitSum_fixed s ts (emitTerm t) (simpStep_emitTerm s ht)
      (getConst_emitTerm t) (fun x hx => hz x (List.mem_cons_of_mem t hx))
    show simpStep s (LinForm.emit ⟨t :: ts, cst⟩) = _
    unfold LinForm.emit
    by_cases hcst : cst = 0
    · simp only [if_pos hcst]
      exact hbase.1
    · simp only [if_neg hcst]
      show simpStep s (Expr.add (emitSum (emitTerm t) ts) (Expr.const cst)) = _
      simp only [simpStep, hbase.1]
      show mkAdd (emitSum (emitTerm t) ts) (Expr.const cst) = _
      unfold mkAdd
      rw [hbase.2]
      show (if cst = 0 then emitSum (emitTerm t) ts
        else Expr.add (emitSum (emitTerm t) ts) (Expr.const cst)) = _
      exact if_neg hcst

/-- Canonicalizing the canonical expression of a well-formed linear form
recovers exactly that form. -/
theorem linearize_emit {p : LinForm} (hwf : TermsWf p.terms) :
    linearize (LinForm.emit p) = some p := by
  obtain ⟨terms, cst⟩ := p
  cases terms with
  | nil => rfl
  | cons t ts =>
    obtain ⟨hsort, hz⟩ := hwf
    have ht : t.2 ≠ 0 := hz t (by simp)
    have hterm : linearize (emitTerm t) = some ⟨[t], 0⟩ :=
      linearize_emitTerm ht
    have hbase : linearize (emitSum (emitTerm t) ts) = some ⟨t :: ts, 0⟩ :=
      linearize_emitSum ts [t] (emitTerm t) hterm hsort hz
    show linearize (LinForm.emit ⟨t :: ts, cst⟩) = _
    unfold LinForm.emit
    by_cases hcst : cst = 0
    · simp only [if_pos hcst]
      rw [hbase, hcst]
    · simp only [if_neg hcst]
      simp only [linearize, hbase, Option.some.injEq, LinForm.mk.injEq,
        zero_add, and_true]
      have hat : addTerms (t :: ts) [] = (t :: ts) ++ [] := by
        refine addTerms_append ?_
        rw [List.append_nil]
        exact hsort
      rw [hat, List.append_nil]

/-- C7: both simplification passes are idempotent for every fixed analyzer
state: re-running `rewrite_simplify` on its own output returns that output
unchanged, and likewise for `canonical_simplify`. -/
theorem simplify_idempotent (s : AnalyzerState) (e : Expr) :
    Analyzer.rewrite_simplify s (Analyzer.rewrite_simplify s e) =
      Analyzer.rewrite_simplify s e ∧
    Analyzer.canonical_simplify s (Analyzer.canonical_simplify s e) =
      Analyzer.canonical_simplify s e := by
  have hrw : ∀ f : Expr, Analyzer.rewrite_simplify s
      (Analyzer.rewrite_simplify s f) = Analyzer.rewrite_simplify s f := by
    intro f
    simp only [rewrite_simplify_eq_simpStep, simpStep_idem]
  refine ⟨hrw e, ?_⟩
  rcases hl : linearize (Analyzer.rewrite_simplify s e) with _ | p
  · have h1 : Analyzer.canonical_simplify s e = Analyzer.rewrite_simplify s e := by
      unfold Analyzer.canonical_simplify
      rw [hl]
    rw [h1]
    unfold Analyzer.canonical_simplify
    rw [hrw e, hl]
  · have h1 : Analyzer.canonical_simplify s e = LinForm.emit p := by
      unfold Analyzer.canonical_simplify
      rw [hl]
    rw [h1]
    unfold Analyzer.canonical_simplify
    have hwf : TermsWf p.terms := linearize_wf hl
    have hfix : Analyzer.rewrite_simplify s (LinForm.emit p) =
        LinForm.emit p := by
      rw [rewrite_simplify_eq_simpStep]
      exact emit_fixed s hwf
    rw [hfix, linearize_emit hwf]
